import Mathlib

/-!
Verification development for the Lorenz-Mie scattering-coefficient engine of
the `lorenzmie` repository.  The two implementations under study are
`theory/Sphere.py` (array-oriented) and `theory/FastSphere.py` (JIT kernel).
Python floating-point numbers are modelled by exact reals, complex arrays by
functions `ℕ → ℂ` (the loops only ever read entries previously written, so a
functional reading is faithful), and Python exceptions by `Except String`.
Division by zero in ℝ/ℂ is Lean's junk value `0`; every theorem that relies
on a quotient carries the corresponding nonvanishing hypothesis.
-/

noncomputable section

/-- Python `int()` applied to a float: truncation toward zero. -/
def pyInt (r : ℝ) : ℤ := if 0 ≤ r then ⌊r⌋ else ⌈r⌉

/-- Model of `np.roll(x, -1)`: cyclic shift moving every entry one slot toward the
front, the first entry wrapping around to the back. -/
def rollNeg1 (x : List ℝ) : List ℝ := x.drop 1 ++ x.take 1

/-- Model of `x[-1]` of a numpy array, with junk value `0` for the empty array (the
entry points guard emptiness separately). -/
def lastD (x : List ℝ) : ℝ := x.getLastD 0

/-- Model of `arr.max()` of a numpy array of nonnegative reals, as a fold with
neutral initial value `0` (all uses are on arrays of absolute values). -/
def listMax (l : List ℝ) : ℝ := l.foldl max 0

/-- The Wiscombe (1980) piecewise estimate `ns` computed by both
`wiscombe_yang` implementations.  `np.floor` returns a float, so the result
stays in ℝ. -/
def wiscombeNs (xl : ℝ) : ℝ :=
  if xl ≤ 8 then (⌊xl + 4 * xl ^ ((1 : ℝ)/3) + 1⌋ : ℤ)
  else if xl ≤ 4200 then (⌊xl + 4.05 * xl ^ ((1 : ℝ)/3) + 2⌋ : ℤ)
  else (⌊xl + 4 * xl ^ ((1 : ℝ)/3) + 2⌋ : ℤ)

/-- Shared numerical core of both `wiscombe_yang` implementations:
`nstop = max(ns, xm.max(), xm_1.max())` followed by `int(nstop)`, with
`xm = abs(x*m)` and `xm_1 = abs(np.roll(x, -1)*m)`. -/
def wiscombeCore (x : List ℝ) (m : List ℂ) : ℤ :=
  let xl := |lastD x|
  let ns := wiscombeNs xl
  let xm := (x.zip m).map (fun p => Complex.abs ((p.1 : ℂ) * p.2))
  let xm_1 := ((rollNeg1 x).zip m).map (fun p => Complex.abs ((p.1 : ℂ) * p.2))
  pyInt (max ns (max (listMax xm) (listMax xm_1)))

/-- Selector `wiscombe_yang` of `FastSphere.py`: reduces the per-layer arrays with
`.max()`, so any non-empty input of matching shape succeeds.  Empty input
raises `IndexError` at `x[-1]`; a non-broadcastable shape mismatch raises
`ValueError` inside `x*m`.  (When exactly one operand has length 1 numpy
would broadcast it; no theorem below touches that corner, and the matching
case is the one exercised by the engine.) -/
def fastWiscombe (x : List ℝ) (m : List ℂ) : Except String ℤ :=
  if x = [] then .error "IndexError: index -1 is out of bounds"
  else if x.length = m.length ∨ x.length = 1 ∨ m.length = 1 then
    .ok (wiscombeCore x m)
  else .error "ValueError: operands could not be broadcast together"

/-- Selector `wiscombe_yang` of `Sphere.py`: `nstop = max(ns, xm, xm_1)` applies the
Python builtin `max` to whole numpy arrays.  For arrays of more than one
element the comparison raises `ValueError: The truth value of an array with
more than one element is ambiguous`; only the single-layer case returns. -/
def sphereWiscombe (x : List ℝ) (m : List ℂ) : Except String ℤ :=
  if x = [] then .error "IndexError: index -1 is out of bounds"
  else if x.length = m.length ∨ x.length = 1 ∨ m.length = 1 then
    if 2 ≤ max x.length m.length then
      .error "ValueError: the truth value of an array with more than one element is ambiguous"
    else .ok (wiscombeCore x m)
  else .error "ValueError: operands could not be broadcast together"

/-- Modelled from the claim text of C1 (spec section 4.1): `ns` from the
piecewise rule on `xl`, per-layer `xm j = abs (x j * m j)` and
`xm1 j = abs (x ((j+1) % L) * m j)` with wraparound, and
`N = floor (max ns (max over j of xm) (max over j of xm1))` as an integer. -/
def specSelect (x : List ℝ) (m : List ℂ) : ℤ :=
  if hL : 0 < x.length then
    let L := x.length
    let xl := |x.getD (L - 1) 0|
    let ns := wiscombeNs xl
    let xm : ℕ → ℝ := fun j => Complex.abs ((x.getD j 0 : ℂ) * m.getD j 0)
    let xm1 : ℕ → ℝ := fun j => Complex.abs ((x.getD ((j + 1) % L) 0 : ℂ) * m.getD j 0)
    ⌊max ns (max ((Finset.range L).sup' (Finset.nonempty_range_iff.mpr hL.ne') xm)
                 ((Finset.range L).sup' (Finset.nonempty_range_iff.mpr hL.ne') xm1))⌋
  else 0

/-!  The coefficient engine.  The recurrence arrays of the Python code are
modelled as functions `ℕ → ℂ`: every loop of the code only reads entries
written on an earlier iteration, so the loops are ordinary recursions. -/

/-- Downward recurrence for the logarithmic derivative `D1`, Eq. (16):
seed `D1[Nt] = 0` (every index at or above the seed is `0`), and
`D1[n-1] = n/z - 1/(D1[n] + n/z)` going down.  `FastSphere.py` runs it
with `Nt = nmax`; `Sphere.py` sizes its arrays `nmax+2` and runs it with
`Nt = nmax+1`. -/
def d1down (z : ℂ) (Nt : ℕ) (k : ℕ) : ℂ :=
  if h : k < Nt then ((k : ℂ) + 1)/z - 1/(d1down z Nt (k + 1) + ((k : ℂ) + 1)/z)
  else 0
termination_by Nt - k
decreasing_by omega

/-- Combined upward recurrence for `PsiZeta` and `D3`, Eq. (18):
first component `PsiZeta`, second `D3`.  `D3[0] = i` (Eq. 18b);
`PsiZeta[n] = PsiZeta[n-1]·(n/z - D1[n-1])·(n/z - D3[n-1])` (Eq. 18c);
`D3[n] = D1[n] + i/PsiZeta[n]` (Eq. 18d). -/
def d3aux (z : ℂ) (d1 : ℕ → ℂ) (pz0 : ℂ) : ℕ → ℂ × ℂ
  | 0 => (pz0, Complex.I)
  | n + 1 =>
    let p := d3aux z d1 pz0 n
    let pz := p.1 * (((n : ℂ) + 1)/z - d1 n) * (((n : ℂ) + 1)/z - p.2)
    (pz, d1 (n + 1) + Complex.I/pz)

/-- The `D3` array produced by the upward recurrence. -/
def d3up (z : ℂ) (d1 : ℕ → ℂ) (pz0 : ℂ) (n : ℕ) : ℂ := (d3aux z d1 pz0 n).2

/-- Riccati-Bessel `psi`, Eq. (20): `psi[0] = sin z`,
`psi[n] = psi[n-1]·(n/z - D1[n-1])`. -/
def psiUp (z : ℂ) (d1 : ℕ → ℂ) : ℕ → ℂ
  | 0 => Complex.sin z
  | n + 1 => psiUp z d1 n * (((n : ℂ) + 1)/z - d1 n)

/-- Riccati-Bessel `zeta`, Eq. (21): `zeta[0] = -i·exp(i z)`,
`zeta[n] = zeta[n-1]·(n/z - D3[n-1])`. -/
def zetaUp (z : ℂ) (d3 : ℕ → ℂ) : ℕ → ℂ
  | 0 => -Complex.I * Complex.exp (Complex.I * z)
  | n + 1 => zetaUp z d3 n * (((n : ℂ) + 1)/z - d3 n)

/-- Start value of `PsiZeta`, Eq. (18a), direct form
`0.5·(1 - exp(2 i z))`: used by `Sphere.py` everywhere and by
`FastSphere.py` in its final (medium) phase. -/
def pzInitDirect (z : ℂ) : ℂ := (1 - Complex.exp (2 * Complex.I * z)) / 2

/-- Start value of `PsiZeta` as computed by the `FastSphere.py` layer loop,
which splits `z = a + i b` and evaluates
`0.5·(1 - exp(2 i a)·exp(-2 b))` with a real exponential for the modulus
factor. -/
def pzInitSplit (z : ℂ) : ℂ :=
  (1 - Complex.exp (2 * Complex.I * (z.re : ℂ)) * ((Real.exp (-2 * z.im) : ℝ) : ℂ)) / 2

/-- Entry `Q[0]`, Eq. (19a), as computed by `FastSphere.py` (split into real and
imaginary parts of `z1`, `z2`). -/
def q0fast (z1 z2 : ℂ) : ℂ :=
  ((Complex.exp (-2 * Complex.I * (z1.re : ℂ)) - ((Real.exp (-2 * z1.im) : ℝ) : ℂ)) /
   (Complex.exp (-2 * Complex.I * (z2.re : ℂ)) - ((Real.exp (-2 * z2.im) : ℝ) : ℂ))) *
  ((Real.exp (-2 * (z2.im - z1.im)) : ℝ) : ℂ)

/-- Entry `Q[0]`, Eq. (19a), as computed by `Sphere.py`:
`(exp(-2 i z2) - 1)/(exp(-2 i z1) - 1)`. -/
def q0sphere (z1 z2 : ℂ) : ℂ :=
  (Complex.exp (-2 * Complex.I * z2) - 1) / (Complex.exp (-2 * Complex.I * z1) - 1)

/-- Recurrence for `Q`, Eq. (19b), `FastSphere.py` variant: the last two factors
reference `d3_z2[n-1]` and `d3_z1[n-1]`. -/
def qUpFast (z1 z2 xr : ℂ) (d1a d1b d3a d3b : ℕ → ℂ) : ℕ → ℂ
  | 0 => q0fast z1 z2
  | n + 1 =>
    qUpFast z1 z2 xr d1a d1b d3a d3b n * xr ^ 2 *
      (z2 * d1b (n + 1) + ((n : ℂ) + 1)) / (z1 * d1a (n + 1) + ((n : ℂ) + 1)) *
      (((n : ℂ) + 1) - z2 * d3b n) / (((n : ℂ) + 1) - z1 * d3a n)

/-- Recurrence for `Q`, Eq. (19b), `Sphere.py` variant: the last two factors
reference `d3_z2[n]` and `d3_z1[n]`. -/
def qUpSphere (z1 z2 xr : ℂ) (d1a d1b d3a d3b : ℕ → ℂ) : ℕ → ℂ
  | 0 => q0sphere z1 z2
  | n + 1 =>
    qUpSphere z1 z2 xr d1a d1b d3a d3b n * xr ^ 2 *
      (z2 * d1b (n + 1) + ((n : ℂ) + 1)) / (z1 * d1a (n + 1) + ((n : ℂ) + 1)) *
      (((n : ℂ) + 1) - z2 * d3b (n + 1)) / (((n : ℂ) + 1) - z1 * d3a (n + 1))

/-- The running layer-coefficient arrays `Ha`, `Hb` carried from layer to
layer. -/
structure HState where
  ha : ℕ → ℂ
  hb : ℕ → ℂ

/-- Phase 1 of `FastSphere._mie_coefficients`: `d1_z1[nmax] = 0`, downward
recursion at `z = x[0]·m[0]` for `n = nmax..1`, then `ha = hb = d1_z1`
(Eq. 7a/8a). -/
def fastPhase1 (z : ℂ) (N : ℕ) : HState := ⟨d1down z N, d1down z N⟩

/-- Phase 1 of `Sphere.mie_coefficients`: arrays have `nmax+2` entries,
`d1_z1[-1] = d1_z1[nmax+1] = 0`, downward recursion for `n = nmax+1..1`,
then `ha = hb = d1_z1[0:-1]` — the first `nmax+1` entries of a depth
`nmax+1` recursion. -/
def spherePhase1 (z : ℂ) (N : ℕ) : HState := ⟨d1down z (N + 1), d1down z (N + 1)⟩

/-- One iteration of the `FastSphere.py` layer loop (Eqs. 12-15, 7b, 8b)
carrying `Ha`/`Hb` across the boundary between layer `ii-1` and `ii`:
`z1 = m[ii]·x[ii]`, `z2 = m[ii]·x[ii-1]`. -/
def fastLayerStep (N : ℕ) (mPrev mCur : ℂ) (xPrev xCur : ℝ) (s : HState) : HState :=
  let z1 := mCur * (xCur : ℂ)
  let z2 := mCur * (xPrev : ℂ)
  let d1a := d1down z1 N
  let d1b := d1down z2 N
  let d3a := d3up z1 d1a (pzInitSplit z1)
  let d3b := d3up z2 d1b (pzInitSplit z2)
  let q := qUpFast z1 z2 (((xPrev / xCur : ℝ) : ℝ) : ℂ) d1a d1b d3a d3b
  { ha := fun n =>
      let g1 := mCur * s.ha n - mPrev * d1b n
      let g2 := mCur * s.ha n - mPrev * d3b n
      (g2 * d1a n - q n * g1 * d3a n) / (g2 - q n * g1)
    hb := fun n =>
      let g1 := mPrev * s.hb n - mCur * d1b n
      let g2 := mPrev * s.hb n - mCur * d3b n
      (g2 * d1a n - q n * g1 * d3a n) / (g2 - q n * g1) }

/-- One iteration of the `Sphere.py` layer loop.  (In the Python code this
loop body is unreachable: for two or more layers `wiscombe_yang` already
raises before it runs, and its `g1`/`g2` lines would themselves raise on a
shape mismatch between the `nmax+1`-entry `ha` and the `nmax+2`-entry
`d1_z2`.  It is embedded as written, restricted to the first `nmax+1`
entries.) -/
def sphereLayerStep (N : ℕ) (mPrev mCur : ℂ) (xPrev xCur : ℝ) (s : HState) : HState :=
  let z1 := (xCur : ℂ) * mCur
  let z2 := (xPrev : ℂ) * mCur
  let d1a := d1down z1 (N + 1)
  let d1b := d1down z2 (N + 1)
  let d3a := d3up z1 d1a (pzInitDirect z1)
  let d3b := d3up z2 d1b (pzInitDirect z2)
  let q := qUpSphere z1 z2 (((xPrev / xCur : ℝ) : ℝ) : ℂ) d1a d1b d3a d3b
  { ha := fun n =>
      let g1 := mCur * s.ha n - mPrev * d1b n
      let g2 := mCur * s.ha n - mPrev * d3b n
      (g2 * d1a n - g1 * q n * d3a n) / (g2 - g1 * q n)
    hb := fun n =>
      let g1 := mPrev * s.hb n - mCur * d1b n
      let g2 := mPrev * s.hb n - mCur * d3b n
      (g2 * d1a n - g1 * q n * d3a n) / (g2 - g1 * q n) }

/-- Model of `np.roll(arr, 1)` read at index `n`, for an array of `N+1` entries:
index `0` wraps around to entry `N`; index `n ≥ 1` reads entry `n-1`. -/
def rollPrev (f : ℕ → ℂ) (N : ℕ) : ℕ → ℂ
  | 0 => f N
  | n + 1 => f n

/-- Final coefficient assembly, Eqs. (5)-(6), shared verbatim by both
implementations: `fac = ha/m[-1] + n/x[-1]` (resp. `hb·m[-1] + n/x[-1]`),
`ab = (fac·psi - roll(psi,1))/(fac·zeta - roll(zeta,1))`, then the
monopole entry is overwritten with `ab[0,:] = 0`. -/
def assembleAB (zl mL : ℂ) (s : HState) (psi zeta : ℕ → ℂ) (N : ℕ) : List (ℂ × ℂ) :=
  let fa := fun n : ℕ => s.ha n / mL + (n : ℂ) / zl
  let fb := fun n : ℕ => s.hb n * mL + (n : ℂ) / zl
  ((List.range (N + 1)).map (fun n =>
    ((fa n * psi n - rollPrev psi N n) / (fa n * zeta n - rollPrev zeta N n),
     (fb n * psi n - rollPrev psi N n) / (fb n * zeta n - rollPrev zeta N n)))).set 0 (0, 0)

/-- Kernel `_mie_coefficients` of `FastSphere.py` for given size parameters,
relative indices and truncation order. -/
def fastMieAB (x : List ℝ) (m : List ℂ) (N : ℕ) : List (ℂ × ℂ) :=
  let z0 := (x.getD 0 0 : ℂ) * m.getD 0 0
  let s0 := fastPhase1 z0 N
  let s := (List.range (x.length - 1)).foldl
    (fun st i =>
      fastLayerStep N (m.getD i 0) (m.getD (i + 1) 0) (x.getD i 0) (x.getD (i + 1) 0) st) s0
  let zl : ℂ := ((lastD x : ℝ) : ℂ)
  let d1L := d1down zl N
  let d3L := d3up zl d1L (pzInitDirect zl)
  assembleAB zl (m.getLastD 0) s (psiUp zl d1L) (zetaUp zl d3L) N

/-- The recurrence part of `mie_coefficients` of `Sphere.py` (depth `N+1`
downward recursions, see `spherePhase1`). -/
def sphereMieAB (x : List ℝ) (m : List ℂ) (N : ℕ) : List (ℂ × ℂ) :=
  let z0 := (x.getD 0 0 : ℂ) * m.getD 0 0
  let s0 := spherePhase1 z0 N
  let s := (List.range (x.length - 1)).foldl
    (fun st i =>
      sphereLayerStep N (m.getD i 0) (m.getD (i + 1) 0) (x.getD i 0) (x.getD (i + 1) 0) st) s0
  let zl : ℂ := ((lastD x : ℝ) : ℂ)
  let d1L := d1down zl (N + 1)
  let d3L := d3up zl d1L (pzInitDirect zl)
  assembleAB zl (m.getLastD 0) s (psiUp zl d1L) (zetaUp zl d3L) N

/-- Wave number in the medium, `k = 2π/λ · Re(n_m)` (µm⁻¹), computed
identically by both entry points. -/
def waveNum (n_m : ℂ) (wavelength : ℝ) : ℝ := 2 * Real.pi / wavelength * n_m.re

/-- Relative refractive index of a layer in `FastSphere.py`:
`m = (n_p + i k_p)/n_m`. -/
def relIndexFast (nr kr : ℝ) (n_m : ℂ) : ℂ := ((nr : ℂ) + Complex.I * (kr : ℂ)) / n_m

/-- The size-parameter vector `x = k·a_p` computed by both entry points. -/
def sizeParams (a_p : List ℝ) (n_m : ℂ) (wavelength : ℝ) : List ℝ :=
  a_p.map (fun a => waveNum n_m wavelength * a)

/-- The relative-index vector of `FastSphere.py`, `m = (n_p + i·k_p)/n_m`. -/
def fastRelIndices (n_p k_p : List ℝ) (n_m : ℂ) : List ℂ :=
  (n_p.zip k_p).map (fun p => relIndexFast p.1 p.2 n_m)

/-- The relative-index vector of `Sphere.py`, `m = n_p/n_m`. -/
def sphereRelIndices (n_p : List ℂ) (n_m : ℂ) : List ℂ :=
  n_p.map (fun n => n / n_m)

/-- Entry point `mie_coefficients` of `FastSphere.py`: physical inputs to coefficient
table.  No validation of radii or wavelength is performed; the only errors
are the ones numpy raises for empty or non-broadcastable shapes (surfaced
through `fastWiscombe`). -/
def fastMie (a_p n_p k_p : List ℝ) (n_m : ℂ) (wavelength : ℝ) :
    Except String (List (ℂ × ℂ)) :=
  if n_p.length = k_p.length then
    match fastWiscombe (sizeParams a_p n_m wavelength) (fastRelIndices n_p k_p n_m) with
    | .ok nstop =>
      .ok (fastMieAB (sizeParams a_p n_m wavelength) (fastRelIndices n_p k_p n_m) nstop.toNat)
    | .error e => .error e
  else .error "ValueError: operands could not be broadcast together"

/-- Entry point `mie_coefficients` of `Sphere.py` (complex layer indices, no separate
absorption argument).  Like the JIT entry point it validates nothing; the
multilayer case dies inside its `wiscombe_yang`. -/
def sphereMie (a_p : List ℝ) (n_p : List ℂ) (n_m : ℂ) (wavelength : ℝ) :
    Except String (List (ℂ × ℂ)) :=
  match sphereWiscombe (sizeParams a_p n_m wavelength) (sphereRelIndices n_p n_m) with
  | .ok nstop =>
    .ok (sphereMieAB (sizeParams a_p n_m wavelength) (sphereRelIndices n_p n_m) nstop.toNat)
  | .error e => .error e

section SelectorLemmas

/-- Each branch of the Wiscombe rule is at least 1 for nonnegative `xl`. -/
lemma wiscombeNs_ge_one {xl : ℝ} (hxl : 0 ≤ xl) : (1 : ℝ) ≤ wiscombeNs xl := by
  have hp : 0 ≤ xl ^ ((1 : ℝ)/3) := Real.rpow_nonneg hxl _
  unfold wiscombeNs
  split_ifs with h1 h2
  · rw [show ((1 : ℝ) = ((1 : ℤ) : ℝ)) by norm_num, Int.cast_le]
    exact Int.le_floor.mpr (by rw [Int.cast_one]; linarith)
  · rw [show ((1 : ℝ) = ((1 : ℤ) : ℝ)) by norm_num, Int.cast_le]
    exact Int.le_floor.mpr (by rw [Int.cast_one]; linarith)
  · rw [show ((1 : ℝ) = ((1 : ℤ) : ℝ)) by norm_num, Int.cast_le]
    exact Int.le_floor.mpr (by rw [Int.cast_one]; linarith)

lemma wiscombeCore_eq_floor (x : List ℝ) (m : List ℂ) :
    wiscombeCore x m =
      ⌊max (wiscombeNs |lastD x|)
        (max (listMax ((x.zip m).map (fun p => Complex.abs ((p.1 : ℝ) * p.2))))
             (listMax (((rollNeg1 x).zip m).map (fun p => Complex.abs ((p.1 : ℝ) * p.2)))))⌋ := by
  have h1 : (1 : ℝ) ≤ wiscombeNs |lastD x| := wiscombeNs_ge_one (abs_nonneg _)
  have h0 : (0 : ℝ) ≤ max (wiscombeNs |lastD x|)
      (max (listMax ((x.zip m).map (fun p => Complex.abs ((p.1 : ℝ) * p.2))))
           (listMax (((rollNeg1 x).zip m).map (fun p => Complex.abs ((p.1 : ℝ) * p.2))))) :=
    le_trans (by linarith) (le_max_left _ _)
  simp only [wiscombeCore, pyInt, if_pos h0]

/-- The bound `N ≥ 1` holds whenever the Wiscombe branch value is at least 1, which holds
for every input (and in particular for `|x[-1]| > 0`). -/
lemma wiscombeCore_ge_one (x : List ℝ) (m : List ℂ) : 1 ≤ wiscombeCore x m := by
  rw [wiscombeCore_eq_floor]
  have h1 : (1 : ℝ) ≤ wiscombeNs |lastD x| := wiscombeNs_ge_one (abs_nonneg _)
  exact Int.le_floor.mpr (by push_cast; exact le_trans h1 (le_max_left _ _))

lemma zipmap_eq_rangemap (f : ℝ × ℂ → ℝ) :
    ∀ (x : List ℝ) (m : List ℂ), x.length = m.length →
      (x.zip m).map f =
        (List.range x.length).map (fun j => f (x.getD j 0, m.getD j 0))
  | [], [], _ => rfl
  | a :: x, b :: m, h => by
    have ih := zipmap_eq_rangemap f x m (by simpa using h)
    simp only [List.length_cons, List.range_succ_eq_map, List.zip_cons_cons,
      List.map_cons, List.map_map, ih]
    exact congrArg _ (List.map_congr_left (fun j _ => rfl))

lemma rollNeg1_length (x : List ℝ) : (rollNeg1 x).length = x.length := by
  simp [rollNeg1]; omega

lemma rollNeg1_getD (x : List ℝ) (j : ℕ) (hj : j < x.length) :
    (rollNeg1 x).getD j 0 = x.getD ((j + 1) % x.length) 0 := by
  match x with
  | [] => simp at hj
  | a :: t =>
    have hx : rollNeg1 (a :: t) = t ++ [a] := by simp [rollNeg1]
    rw [hx]
    rcases lt_or_ge j t.length with hlt | hge
    · have h1 : (t ++ [a]).getD j 0 = t.getD j 0 := List.getD_append t [a] 0 j hlt
      have h2 : (j + 1) % (a :: t).length = j + 1 := by
        rw [List.length_cons]; exact Nat.mod_eq_of_lt (by omega)
      rw [h1, h2, List.getD_cons_succ]
    · have hj' : j < (a :: t).length := hj
      rw [List.length_cons] at hj'
      have hj2 : j = t.length := by omega
      subst hj2
      have h1 : (t ++ [a]).getD t.length 0 = a := by
        rw [List.getD_append_right t [a] 0 t.length (le_refl _), Nat.sub_self]; rfl
      have h2 : (t.length + 1) % (a :: t).length = 0 := by
        rw [List.length_cons]; exact Nat.mod_self _
      rw [h1, h2, List.getD_cons_zero]

lemma lastD_eq_getD : ∀ (x : List ℝ), x ≠ [] → lastD x = x.getD (x.length - 1) 0
  | [a], _ => rfl
  | a :: b :: t, _ => by
    have ih := lastD_eq_getD (b :: t) (by simp)
    simpa [lastD, List.getLastD] using ih

lemma foldl_max_le {c : ℝ} :
    ∀ (l : List ℝ) (i : ℝ), i ≤ c → (∀ a ∈ l, a ≤ c) → l.foldl max i ≤ c
  | [], _, hi, _ => hi
  | a :: l, i, hi, h =>
    foldl_max_le l (max i a) (max_le hi (h a (by simp)))
      (fun b hb => h b (by simp [hb]))

lemma le_foldl_max_init : ∀ (l : List ℝ) (i : ℝ), i ≤ l.foldl max i
  | [], _ => le_refl _
  | a :: l, i => le_trans (le_max_left i a) (le_foldl_max_init l (max i a))

lemma mem_le_foldl_max : ∀ (l : List ℝ) (i : ℝ) (a : ℝ), a ∈ l → a ≤ l.foldl max i
  | b :: l, i, a, ha => by
    rcases List.mem_cons.mp ha with h | h
    · subst h
      exact le_trans (le_max_right i a) (le_foldl_max_init l (max i a))
    · exact mem_le_foldl_max l (max i b) a h

lemma listMax_nonneg (l : List ℝ) : 0 ≤ listMax l := le_foldl_max_init l 0

lemma le_listMax {l : List ℝ} {a : ℝ} (h : a ∈ l) : a ≤ listMax l :=
  mem_le_foldl_max l 0 a h

lemma listMax_le {l : List ℝ} {c : ℝ} (h0 : 0 ≤ c) (h : ∀ a ∈ l, a ≤ c) :
    listMax l ≤ c := foldl_max_le l 0 h0 h

lemma listMax_rangemap_eq_sup' (g : ℕ → ℝ) (hg : ∀ j, 0 ≤ g j) (L : ℕ) (hL : L ≠ 0) :
    listMax ((List.range L).map g) =
      (Finset.range L).sup' (Finset.nonempty_range_iff.mpr hL) g := by
  apply le_antisymm
  · apply listMax_le
    · exact le_trans (hg 0)
        (Finset.le_sup' g (Finset.mem_range.mpr (Nat.pos_of_ne_zero hL)))
    · intro a ha
      rcases List.mem_map.mp ha with ⟨j, hj, rfl⟩
      exact Finset.le_sup' g (by simpa using hj)
  · apply Finset.sup'_le
    intro j hj
    exact le_listMax (List.mem_map.mpr ⟨j, by simpa using hj, rfl⟩)

lemma foldl_max_mono :
    ∀ {l l' : List ℝ}, List.Forall₂ (· ≤ ·) l l' →
      ∀ {i i' : ℝ}, i ≤ i' → l.foldl max i ≤ l'.foldl max i' := by
  intro l l' h
  induction h with
  | nil => intro i i' hi; exact hi
  | cons hab _ ih => intro i i' hi; exact ih (max_le_max hi hab)

lemma listMax_mono {l l' : List ℝ} (h : List.Forall₂ (· ≤ ·) l l') :
    listMax l ≤ listMax l' := foldl_max_mono h (le_refl 0)

lemma wiscombeCore_eq_specSelect (x : List ℝ) (m : List ℂ) (hx : x ≠ [])
    (hlen : x.length = m.length) : wiscombeCore x m = specSelect x m := by
  have hL : 0 < x.length := List.length_pos.mpr hx
  have habs : ∀ j, (0 : ℝ) ≤ Complex.abs ((x.getD j 0 : ℂ) * m.getD j 0) :=
    fun j => AbsoluteValue.nonneg _ _
  have habs1 : ∀ j,
      (0 : ℝ) ≤ Complex.abs ((x.getD ((j + 1) % x.length) 0 : ℂ) * m.getD j 0) :=
    fun j => AbsoluteValue.nonneg _ _
  have eA : listMax ((x.zip m).map (fun p => Complex.abs ((p.1 : ℝ) * p.2))) =
      (Finset.range x.length).sup' (Finset.nonempty_range_iff.mpr hL.ne')
        (fun j => Complex.abs ((x.getD j 0 : ℂ) * m.getD j 0)) := by
    rw [zipmap_eq_rangemap _ x m hlen]
    exact listMax_rangemap_eq_sup' _ habs _ hL.ne'
  have eB : listMax (((rollNeg1 x).zip m).map (fun p => Complex.abs ((p.1 : ℝ) * p.2))) =
      (Finset.range x.length).sup' (Finset.nonempty_range_iff.mpr hL.ne')
        (fun j => Complex.abs ((x.getD ((j + 1) % x.length) 0 : ℂ) * m.getD j 0)) := by
    rw [zipmap_eq_rangemap _ (rollNeg1 x) m ((rollNeg1_length x).trans hlen),
      rollNeg1_length x]
    rw [List.map_congr_left (fun j hj => by
      rw [rollNeg1_getD x j (List.mem_range.mp hj)])]
    exact listMax_rangemap_eq_sup' _ habs1 _ hL.ne'
  have exl : lastD x = x.getD (x.length - 1) 0 := lastD_eq_getD x hx
  rw [wiscombeCore_eq_floor, eA, eB, exl, specSelect, dif_pos hL]

end SelectorLemmas

/-- C1: for every non-empty `x` and equal-length `m`, the truncation
selector returns exactly the value prescribed by the spec algorithm
(piecewise Wiscombe rule, per-layer products with wraparound, floor of the
maximum, integer cast).  Stated for the JIT selector on all such inputs and
for the array selector on the single-layer inputs it accepts. -/
theorem C1_selector_matches_spec (x : List ℝ) (m : List ℂ) (hx : x ≠ [])
    (hlen : x.length = m.length) :
    fastWiscombe x m = .ok (specSelect x m) ∧
      (x.length = 1 → sphereWiscombe x m = .ok (specSelect x m)) := by
  have hcore := wiscombeCore_eq_specSelect x m hx hlen
  constructor
  · rw [fastWiscombe, if_neg hx, if_pos (Or.inl hlen), hcore]
  · intro h1
    rw [sphereWiscombe, if_neg hx, if_pos (Or.inl hlen),
      if_neg (by omega : ¬2 ≤ max x.length m.length), hcore]

/-- Witness for C1 at the single-layer input `x = [1]`, `m = [1]`. -/
theorem C1_selector_matches_spec_witness :
    fastWiscombe [1] [1] = .ok (specSelect [1] [1]) ∧
      (([1] : List ℝ).length = 1 →
        sphereWiscombe [1] [1] = .ok (specSelect [1] [1])) :=
  C1_selector_matches_spec [1] [1] (by simp) (by simp)

section EngineLemmas

lemma d1down_of_ge {z : ℂ} {Nt k : ℕ} (h : Nt ≤ k) : d1down z Nt k = 0 := by
  rw [d1down]
  exact dif_neg (by omega)

lemma d1down_of_lt {z : ℂ} {Nt k : ℕ} (h : k < Nt) :
    d1down z Nt k =
      ((k : ℂ) + 1)/z - 1/(d1down z Nt (k + 1) + ((k : ℂ) + 1)/z) := by
  conv_lhs => rw [d1down]
  rw [dif_pos h]

lemma head?_set_zero {α : Type} (l : List α) (p : α) (h : l ≠ []) :
    (l.set 0 p).head? = some p := by
  cases l with
  | nil => exact absurd rfl h
  | cons a t => rfl

lemma drop_one_set_zero {α : Type} (l : List α) (p : α) :
    (l.set 0 p).drop 1 = l.drop 1 := by
  cases l <;> rfl

lemma assembleAB_head (zl mL : ℂ) (s : HState) (psi zeta : ℕ → ℂ) (N : ℕ) :
    (assembleAB zl mL s psi zeta N).head? = some (0, 0) := by
  apply head?_set_zero
  simp [List.range_succ_eq_map]

lemma assembleAB_drop_one (zl mL : ℂ) (s : HState) (psi zeta : ℕ → ℂ) (N : ℕ) :
    (assembleAB zl mL s psi zeta N).drop 1 =
      (List.range N).map (fun j =>
        (((s.ha (j+1) / mL + ((j+1 : ℕ) : ℂ) / zl) * psi (j+1) - psi j) /
           ((s.ha (j+1) / mL + ((j+1 : ℕ) : ℂ) / zl) * zeta (j+1) - zeta j),
         ((s.hb (j+1) * mL + ((j+1 : ℕ) : ℂ) / zl) * psi (j+1) - psi j) /
           ((s.hb (j+1) * mL + ((j+1 : ℕ) : ℂ) / zl) * zeta (j+1) - zeta j))) := by
  rw [assembleAB, drop_one_set_zero]
  rw [List.range_succ_eq_map, List.map_cons, List.drop_succ_cons, List.drop_zero,
    List.map_map]
  exact List.map_congr_left (fun j _ => rfl)

lemma fastMie_ok (a_p n_p k_p : List ℝ) (n_m : ℂ) (wl : ℝ)
    (ha : a_p ≠ []) (h1 : a_p.length = n_p.length) (h2 : n_p.length = k_p.length) :
    fastMie a_p n_p k_p n_m wl =
      .ok (fastMieAB (sizeParams a_p n_m wl) (fastRelIndices n_p k_p n_m)
        (wiscombeCore (sizeParams a_p n_m wl) (fastRelIndices n_p k_p n_m)).toNat) := by
  have hx : sizeParams a_p n_m wl ≠ [] := by
    apply List.ne_nil_of_length_pos
    simp only [sizeParams, List.length_map]
    exact List.length_pos.mpr ha
  have hlen : (sizeParams a_p n_m wl).length = (fastRelIndices n_p k_p n_m).length := by
    simp only [sizeParams, fastRelIndices, List.length_map, List.length_zip]
    omega
  rw [fastMie, if_pos h2, fastWiscombe, if_neg hx, if_pos (Or.inl hlen)]

lemma sphereMie_ok_single (a0 : ℝ) (np0 : ℂ) (n_m : ℂ) (wl : ℝ) :
    sphereMie [a0] [np0] n_m wl =
      .ok (sphereMieAB (sizeParams [a0] n_m wl) (sphereRelIndices [np0] n_m)
        (wiscombeCore (sizeParams [a0] n_m wl) (sphereRelIndices [np0] n_m)).toNat) := by
  rw [sphereMie, sphereWiscombe, if_neg (by simp [sizeParams]),
    if_pos (Or.inl (by simp [sizeParams, sphereRelIndices])),
    if_neg (by simp [sizeParams, sphereRelIndices])]

end EngineLemmas

/-- C7: for every input whose outermost size parameter has positive
modulus, the selector value is at least 1 (the Wiscombe branch value is at
least 1 and taking maxima only increases it), for the shared core and for
whatever either selector returns. -/
theorem C7_truncation_at_least_one (x : List ℝ) (m : List ℂ)
    (hxl : 0 < |lastD x|) :
    1 ≤ wiscombeCore x m ∧
      (∀ n, fastWiscombe x m = Except.ok n → 1 ≤ n) ∧
      (∀ n, sphereWiscombe x m = Except.ok n → 1 ≤ n) := by
  refine ⟨wiscombeCore_ge_one x m, ?_, ?_⟩
  · intro n h
    rw [fastWiscombe] at h
    split_ifs at h
    · cases h
      exact wiscombeCore_ge_one x m
  · intro n h
    rw [sphereWiscombe] at h
    split_ifs at h
    · cases h
      exact wiscombeCore_ge_one x m

/-- Witness for C7 at `x = [1]`, `m = [1]`. -/
theorem C7_truncation_at_least_one_witness :
    1 ≤ wiscombeCore [1] [1] ∧
      (∀ n, fastWiscombe [1] [1] = Except.ok n → 1 ≤ n) ∧
      (∀ n, sphereWiscombe [1] [1] = Except.ok n → 1 ≤ n) :=
  C7_truncation_at_least_one [1] [1] (by norm_num [lastD, List.getLastD])

/-- C10: with matching shapes, the array-oriented selector raises for two
or more layers (Python `max` over multi-element numpy arrays) and with it
the array-oriented entry point, while it does return for one layer; the
JIT selector returns for every non-empty input. -/
theorem C10_array_selector_multilayer_fails (x : List ℝ) (m : List ℂ)
    (hlen : x.length = m.length) :
    (2 ≤ x.length → ∃ e, sphereWiscombe x m = .error e) ∧
    (x.length = 1 → ∃ n, sphereWiscombe x m = .ok n) ∧
    (x ≠ [] → ∃ n, fastWiscombe x m = .ok n) ∧
    (∀ (a_p : List ℝ) (n_p : List ℂ) (n_m : ℂ) (wl : ℝ),
      2 ≤ a_p.length → a_p.length = n_p.length →
        ∃ e, sphereMie a_p n_p n_m wl = .error e) := by
  refine ⟨?_, ?_, ?_, ?_⟩
  · intro h2
    rw [sphereWiscombe, if_neg (by intro h; rw [h] at h2; simp at h2),
      if_pos (Or.inl hlen), if_pos (by simpa using le_trans h2 (le_max_left x.length m.length))]
    exact ⟨_, rfl⟩
  · intro h1
    refine ⟨wiscombeCore x m, ?_⟩
    rw [sphereWiscombe, if_neg (by intro h; rw [h] at h1; simp at h1),
      if_pos (Or.inl hlen), if_neg (by omega)]
  · intro hx
    refine ⟨wiscombeCore x m, ?_⟩
    rw [fastWiscombe, if_neg hx, if_pos (Or.inl hlen)]
  · intro a_p n_p n_m wl h2 hl
    have hx : sizeParams a_p n_m wl ≠ [] := by
      apply List.ne_nil_of_length_pos
      simp only [sizeParams, List.length_map]
      omega
    have hlen2 : (sizeParams a_p n_m wl).length =
        (sphereRelIndices n_p n_m).length := by
      simpa [sizeParams, sphereRelIndices] using hl
    rw [sphereMie]
    rw [sphereWiscombe, if_neg hx, if_pos (Or.inl hlen2),
      if_pos (by
        have h2' : 2 ≤ (sizeParams a_p n_m wl).length := by
          simpa [sizeParams] using h2
        exact le_trans h2' (le_max_left _ _))]
    exact ⟨_, rfl⟩

/-- Witness for C10 at `x = [1, 2]`, `m = [1, 1]`. -/
theorem C10_array_selector_multilayer_fails_witness :
    (∃ e, sphereWiscombe [1, 2] [1, 1] = .error e) ∧
      (∃ n, fastWiscombe [1, 2] [1, 1] = .ok n) :=
  ⟨(C10_array_selector_multilayer_fails [1, 2] [1, 1] (by simp)).1 (by simp),
   (C10_array_selector_multilayer_fails [1, 2] [1, 1] (by simp)).2.2.1 (by simp)⟩

/-- C2: the returned coefficient table always has `(a_0, b_0) = (0, 0)` —
the final `ab[0, :] = 0` assignment overwrites whatever the assembly
produced, for the JIT engine on any well-shaped input and for the
array engine on the single-layer inputs it accepts. -/
theorem C2_monopole_forced_zero (a_p n_p k_p : List ℝ) (n_m : ℂ) (wl : ℝ)
    (ha : a_p ≠ []) (h1 : a_p.length = n_p.length) (h2 : n_p.length = k_p.length) :
    (∃ t, fastMie a_p n_p k_p n_m wl = .ok t ∧ t.head? = some (0, 0)) ∧
    (∀ (a0 : ℝ) (np0 : ℂ), ∃ t,
      sphereMie [a0] [np0] n_m wl = .ok t ∧ t.head? = some (0, 0)) := by
  constructor
  · refine ⟨_, fastMie_ok a_p n_p k_p n_m wl ha h1 h2, ?_⟩
    rw [fastMieAB]
    exact assembleAB_head _ _ _ _ _ _
  · intro a0 np0
    refine ⟨_, sphereMie_ok_single a0 np0 n_m wl, ?_⟩
    rw [sphereMieAB]
    exact assembleAB_head _ _ _ _ _ _

/-- Witness for C2 at a single-layer input. -/
theorem C2_monopole_forced_zero_witness :
    (∃ t, fastMie [1] [1] [0] 1 1 = .ok t ∧ t.head? = some (0, 0)) ∧
    (∀ (a0 : ℝ) (np0 : ℂ), ∃ t,
      sphereMie [a0] [np0] 1 1 = .ok t ∧ t.head? = some (0, 0)) :=
  C2_monopole_forced_zero [1] [1] [0] 1 1 (by simp) (by simp) (by simp)

/-- C3 counterexample: the claim says Phase 1 seeds `D1[N] = 0` and recurs
from `n = N`, so its `H_a[N]` would be `0`; the array implementation
(`Sphere.py`) instead seeds at `N+1` and performs one extra step, giving
`H_a[1] = 3/2` at `z = 1`, `N = 1` where the claimed recursion gives `0`. -/
theorem C3_counterexample_sphere_seed :
    (spherePhase1 1 1).ha 1 ≠ d1down 1 1 1 := by
  have h1 : d1down (1 : ℂ) 1 1 = 0 := d1down_of_ge (le_refl 1)
  have h2 : (spherePhase1 (1 : ℂ) 1).ha 1 = 3/2 := by
    show d1down (1 : ℂ) 2 1 = 3/2
    rw [d1down_of_lt (by norm_num), d1down_of_ge (le_refl 2)]
    norm_num
  rw [h1, h2]
  norm_num

/-- C3 amended: the JIT kernel's Phase 1 is exactly the claimed recursion
(seed `D1[N] = 0`, recurrence below `N`, `H_a = H_b = D1`); the array
implementation seeds `D1[N+1] = 0` and recurs for `n = N+1, …, 1`, so its
recurrence also holds at index `N`, and it too sets `H_a = H_b` before any
further layer. -/
theorem C3_amended_phase1_seeding (z : ℂ) (N : ℕ) :
    (fastPhase1 z N).ha N = 0 ∧
    (∀ n, n < N → (fastPhase1 z N).ha n =
      ((n : ℂ) + 1)/z - 1/((fastPhase1 z N).ha (n + 1) + ((n : ℂ) + 1)/z)) ∧
    (fastPhase1 z N).hb = (fastPhase1 z N).ha ∧
    (spherePhase1 z N).ha (N + 1) = 0 ∧
    (∀ n, n ≤ N → (spherePhase1 z N).ha n =
      ((n : ℂ) + 1)/z - 1/((spherePhase1 z N).ha (n + 1) + ((n : ℂ) + 1)/z)) ∧
    (spherePhase1 z N).hb = (spherePhase1 z N).ha := by
  refine ⟨d1down_of_ge (le_refl N), ?_, rfl, d1down_of_ge (le_refl (N + 1)), ?_, rfl⟩
  · intro n hn
    exact d1down_of_lt hn
  · intro n hn
    exact d1down_of_lt (by omega)

/-- Witness for C3's amended statement: the recurrence at `z = 1`, `N = 2`,
index `0`. -/
theorem C3_amended_phase1_seeding_witness :
    (fastPhase1 (1 : ℂ) 2).ha 0 =
      (((0 : ℕ) : ℂ) + 1)/1 - 1/((fastPhase1 (1 : ℂ) 2).ha (0 + 1) + (((0 : ℕ) : ℂ) + 1)/1) :=
  (C3_amended_phase1_seeding 1 2).2.1 0 (by norm_num)

/-- C8 counterexample: a negative radius is not rejected — the JIT entry
point returns a coefficient table for `a_p = [-1]`. -/
theorem C8_counterexample_negative_radius :
    ∃ t, fastMie [-1] [3/2] [0] 1 (447/1000) = .ok t :=
  ⟨_, fastMie_ok [-1] [3/2] [0] 1 (447/1000) (by simp) (by simp) (by simp)⟩

/-- C8 amended: the entry points perform no precondition validation.  An
empty layer list errors (numpy `IndexError` at `x[-1]` in the selector),
and a non-broadcastable length mismatch errors inside the selector's
product, but non-positive radii and wavelengths are accepted and a table is
returned; likewise the array engine returns a table for any single-layer
radius. -/
theorem C8_amended_no_validation (a_p n_p k_p : List ℝ) (n_m : ℂ) (wl : ℝ) :
    (a_p = [] → n_p.length = k_p.length →
      ∃ e, fastMie a_p n_p k_p n_m wl = .error e) ∧
    (2 ≤ a_p.length → 2 ≤ n_p.length → a_p.length ≠ n_p.length →
      n_p.length = k_p.length →
      ∃ e, fastMie a_p n_p k_p n_m wl = .error e) ∧
    (a_p ≠ [] → a_p.length = n_p.length → n_p.length = k_p.length →
      ∃ t, fastMie a_p n_p k_p n_m wl = .ok t) ∧
    (∀ (a0 : ℝ) (np0 : ℂ), ∃ t, sphereMie [a0] [np0] n_m wl = .ok t) := by
  refine ⟨?_, ?_, ?_, ?_⟩
  · intro he hk
    subst he
    rw [fastMie, if_pos hk, fastWiscombe, if_pos (by simp [sizeParams])]
    exact ⟨_, rfl⟩
  · intro h2a h2n hne hk
    have hx : sizeParams a_p n_m wl ≠ [] := by
      apply List.ne_nil_of_length_pos
      simp only [sizeParams, List.length_map]
      omega
    rw [fastMie, if_pos hk, fastWiscombe, if_neg hx, if_neg (by
      simp only [sizeParams, fastRelIndices, List.length_map, List.length_zip]
      omega)]
    exact ⟨_, rfl⟩
  · intro hne hlen hk
    exact ⟨_, fastMie_ok a_p n_p k_p n_m wl hne hlen hk⟩
  · intro a0 np0
    exact ⟨_, sphereMie_ok_single a0 np0 n_m wl⟩

/-- Witness for C8's amended statement: empty input errors, and a
(nonsensical) negative-wavelength single-layer input still returns a
table. -/
theorem C8_amended_no_validation_witness :
    (∃ e, fastMie [] [] [] 1 1 = .error e) ∧
      (∃ t, fastMie [2] [1] [0] 1 (-1) = .ok t) :=
  ⟨(C8_amended_no_validation [] [] [] 1 1).1 rfl rfl,
   (C8_amended_no_validation [2] [1] [0] 1 (-1)).2.2.1 (by simp) (by simp) (by simp)⟩

section TruncationMonotonicity

lemma pyInt_mono_nonneg {u v : ℝ} (hu : 0 ≤ u) (huv : u ≤ v) :
    pyInt u ≤ pyInt v := by
  unfold pyInt
  rw [if_pos hu, if_pos (hu.trans huv)]
  exact Int.floor_le_floor huv

lemma pyInt_intCast (n : ℤ) (hn : 0 ≤ (n : ℝ)) : pyInt (n : ℝ) = n := by
  unfold pyInt
  rw [if_pos hn, Int.floor_intCast]

lemma rpow_third_cube {b : ℝ} (hb : 0 ≤ b) : (b ^ ((1 : ℝ)/3)) ^ (3 : ℕ) = b := by
  rw [← Real.rpow_natCast (b ^ ((1 : ℝ)/3)) 3, ← Real.rpow_mul hb]
  norm_num

lemma cbrt_bounds {b lo hi : ℝ} (hlo : 0 ≤ lo) (hhi : 0 ≤ hi) (hb : 0 ≤ b)
    (h1 : lo ^ (3 : ℕ) < b) (h2 : b < hi ^ (3 : ℕ)) :
    lo < b ^ ((1 : ℝ)/3) ∧ b ^ ((1 : ℝ)/3) < hi := by
  have hc : 0 ≤ b ^ ((1 : ℝ)/3) := Real.rpow_nonneg hb _
  constructor
  · by_contra hcon
    push_neg at hcon
    have h3 := pow_le_pow_left hc hcon 3
    rw [rpow_third_cube hb] at h3
    linarith
  · by_contra hcon
    push_neg at hcon
    have h3 := pow_le_pow_left hhi hcon 3
    rw [rpow_third_cube hb] at h3
    linarith

lemma wiscombeCore_single_nonneg (a : ℝ) (ha : 0 ≤ a) :
    wiscombeCore [a] [1] = pyInt (max (wiscombeNs a) a) := by
  have hlast : lastD [a] = a := rfl
  have habs : Complex.abs ((a : ℂ) * 1) = a := by
    rw [mul_one, Complex.abs_ofReal, abs_of_nonneg ha]
  simp only [wiscombeCore, rollNeg1, hlast, List.drop_succ_cons, List.drop_zero,
    List.take_succ_cons, List.take_zero, List.nil_append, List.zip_cons_cons,
    List.zip_nil_right, List.map_cons, List.map_nil, listMax, List.foldl_cons,
    List.foldl_nil, habs, abs_of_nonneg ha, max_self]
  rw [max_eq_right ha]

lemma wiscombeNs_at_4200 : wiscombeNs 4200 = ((4267 : ℤ) : ℝ) := by
  have hb := cbrt_bounds (show (0:ℝ) ≤ 16.13 by norm_num)
    (show (0:ℝ) ≤ 16.14 by norm_num) (show (0:ℝ) ≤ 4200 by norm_num)
    (show (16.13:ℝ) ^ (3:ℕ) < 4200 by norm_num)
    (show (4200:ℝ) < (16.14:ℝ) ^ (3:ℕ) by norm_num)
  unfold wiscombeNs
  rw [if_neg (by norm_num), if_pos (by norm_num)]
  have hfl : ⌊(4200 : ℝ) + 4.05 * (4200 : ℝ) ^ ((1:ℝ)/3) + 2⌋ = (4267 : ℤ) := by
    rw [Int.floor_eq_iff]
    constructor
    · push_cast
      nlinarith [hb.1]
    · push_cast
      nlinarith [hb.2]
  rw [hfl]

lemma wiscombeNs_above_4200 : wiscombeNs (4200.1 : ℝ) = ((4266 : ℤ) : ℝ) := by
  have hb := cbrt_bounds (show (0:ℝ) ≤ 16.13 by norm_num)
    (show (0:ℝ) ≤ 16.14 by norm_num) (show (0:ℝ) ≤ 4200.1 by norm_num)
    (show (16.13:ℝ) ^ (3:ℕ) < 4200.1 by norm_num)
    (show (4200.1:ℝ) < (16.14:ℝ) ^ (3:ℕ) by norm_num)
  unfold wiscombeNs
  rw [if_neg (by norm_num), if_neg (by norm_num)]
  have hfl : ⌊(4200.1 : ℝ) + 4 * (4200.1 : ℝ) ^ ((1:ℝ)/3) + 2⌋ = (4266 : ℤ) := by
    rw [Int.floor_eq_iff]
    constructor
    · push_cast
      nlinarith [hb.1]
    · push_cast
      nlinarith [hb.2]
  rw [hfl]

lemma wiscombeNs_mono {r s : ℝ} (hr : 0 ≤ r) (hrs : r ≤ s)
    (hside : s ≤ 4200 ∨ 4200 < r) : wiscombeNs r ≤ wiscombeNs s := by
  have hs : 0 ≤ s := hr.trans hrs
  have hcube : r ^ ((1:ℝ)/3) ≤ s ^ ((1:ℝ)/3) :=
    Real.rpow_le_rpow hr hrs (by norm_num)
  have hc1 : 0 ≤ r ^ ((1:ℝ)/3) := Real.rpow_nonneg hr _
  have hc2 : 0 ≤ s ^ ((1:ℝ)/3) := Real.rpow_nonneg hs _
  have hmono : ∀ u v : ℝ, u ≤ v → ((⌊u⌋ : ℤ) : ℝ) ≤ ((⌊v⌋ : ℤ) : ℝ) :=
    fun u v h => by exact_mod_cast Int.floor_le_floor h
  unfold wiscombeNs
  split_ifs <;>
    first
      | exact hmono _ _ (by linarith)
      | linarith
      | (rcases hside with h | h <;> linarith)

lemma zipmap_abs_mono {x y : List ℝ}
    (h : List.Forall₂ (fun a b => |a| ≤ |b|) x y) :
    ∀ (m : List ℂ),
      List.Forall₂ (· ≤ ·)
        ((x.zip m).map (fun p => Complex.abs ((p.1 : ℝ) * p.2)))
        ((y.zip m).map (fun p => Complex.abs ((p.1 : ℝ) * p.2))) := by
  induction h with
  | nil => intro m; simp only [List.zip_nil_left, List.map_nil]; exact List.Forall₂.nil
  | @cons a b la lb hab hrest ih =>
    intro m
    cases m with
    | nil => simp only [List.zip_nil_right, List.map_nil]; exact List.Forall₂.nil
    | cons c mc =>
      simp only [List.zip_cons_cons, List.map_cons]
      refine List.Forall₂.cons ?_ (ih mc)
      calc Complex.abs ((a : ℂ) * c) = |a| * Complex.abs c := by
            rw [map_mul, Complex.abs_ofReal]
        _ ≤ |b| * Complex.abs c :=
            mul_le_mul_of_nonneg_right hab (AbsoluteValue.nonneg _ _)
        _ = Complex.abs ((b : ℂ) * c) := by rw [map_mul, Complex.abs_ofReal]

lemma forall₂_abs_refl (l : List ℝ) :
    List.Forall₂ (fun a b => |a| ≤ |b|) l l :=
  List.forall₂_same.mpr (fun a _ => le_refl |a|)

lemma forall₂_abs_append_last {xs : List ℝ} {r s : ℝ} (h : |r| ≤ |s|) :
    List.Forall₂ (fun a b => |a| ≤ |b|) (xs ++ [r]) (xs ++ [s]) :=
  List.rel_append (forall₂_abs_refl xs)
    (List.Forall₂.cons h List.Forall₂.nil)

lemma forall₂_abs_roll {xs : List ℝ} {r s : ℝ} (h : |r| ≤ |s|) :
    List.Forall₂ (fun a b => |a| ≤ |b|)
      (rollNeg1 (xs ++ [r])) (rollNeg1 (xs ++ [s])) := by
  cases xs with
  | nil =>
    simp only [List.nil_append, rollNeg1, List.drop_succ_cons, List.drop_zero,
      List.take_succ_cons, List.take_zero]
    exact List.rel_append List.Forall₂.nil (List.Forall₂.cons h List.Forall₂.nil)
  | cons a t =>
    have e : ∀ u : ℝ, rollNeg1 ((a :: t) ++ [u]) = (t ++ [u]) ++ [a] := by
      intro u
      simp [rollNeg1]
    rw [e r, e s]
    exact List.rel_append (forall₂_abs_append_last h)
      (List.Forall₂.cons (le_refl _) List.Forall₂.nil)

/-- C6 counterexample: the truncation order decreases when the outermost
size parameter crosses the `xl = 4200` boundary, because the Wiscombe
coefficient drops from `4.05` back to `4`: `N(4200) = 4267` but
`N(4200.1) = 4266`. -/
theorem C6_counterexample_boundary_4200 :
    (4200 : ℝ) ≤ 4200.1 ∧
      wiscombeCore [(4200.1 : ℝ)] [1] < wiscombeCore [(4200 : ℝ)] [1] := by
  refine ⟨by norm_num, ?_⟩
  rw [wiscombeCore_single_nonneg 4200 (by norm_num),
    wiscombeCore_single_nonneg 4200.1 (by norm_num),
    wiscombeNs_at_4200, wiscombeNs_above_4200,
    max_eq_left (by norm_num : (4200 : ℝ) ≤ ((4267 : ℤ) : ℝ)),
    max_eq_left (by norm_num : (4200.1 : ℝ) ≤ ((4266 : ℤ) : ℝ)),
    pyInt_intCast _ (by norm_num), pyInt_intCast _ (by norm_num)]
  norm_num

/-- C6 amended: with layer count and relative indices fixed, the selector
value is monotonically non-decreasing in the outermost size parameter as
long as the `xl = 4200` boundary is not crossed (in particular it is
non-decreasing across the `xl = 8` boundary); crossing `xl = 4200` it may
decrease, as the counterexample shows. -/
theorem C6_amended_monotone_in_outer (xs : List ℝ) (m : List ℂ) (r s : ℝ)
    (hr : 0 ≤ r) (hrs : r ≤ s) (hside : s ≤ 4200 ∨ 4200 < r) :
    wiscombeCore (xs ++ [r]) m ≤ wiscombeCore (xs ++ [s]) m := by
  have hs : 0 ≤ s := hr.trans hrs
  have hlast : ∀ u : ℝ, lastD (xs ++ [u]) = u := by
    intro u
    rw [lastD, List.getLastD_concat]
  have habs : |r| ≤ |s| := by
    rw [abs_of_nonneg hr, abs_of_nonneg hs]; exact hrs
  have hnsmono : wiscombeNs |lastD (xs ++ [r])| ≤ wiscombeNs |lastD (xs ++ [s])| := by
    rw [hlast r, hlast s, abs_of_nonneg hr, abs_of_nonneg hs]
    exact wiscombeNs_mono hr hrs hside
  have hxm : listMax (((xs ++ [r]).zip m).map (fun p => Complex.abs ((p.1 : ℝ) * p.2))) ≤
      listMax (((xs ++ [s]).zip m).map (fun p => Complex.abs ((p.1 : ℝ) * p.2))) :=
    listMax_mono (zipmap_abs_mono (forall₂_abs_append_last habs) m)
  have hxm1 : listMax (((rollNeg1 (xs ++ [r])).zip m).map
        (fun p => Complex.abs ((p.1 : ℝ) * p.2))) ≤
      listMax (((rollNeg1 (xs ++ [s])).zip m).map
        (fun p => Complex.abs ((p.1 : ℝ) * p.2))) :=
    listMax_mono (zipmap_abs_mono (forall₂_abs_roll habs) m)
  have h1 : (1 : ℝ) ≤ wiscombeNs |lastD (xs ++ [r])| := wiscombeNs_ge_one (abs_nonneg _)
  rw [wiscombeCore_eq_floor, wiscombeCore_eq_floor]
  apply Int.floor_le_floor
  exact max_le_max hnsmono (max_le_max hxm hxm1)

/-- Witness for C6's amended statement at `xs = []`, `m = [1]`, `r = 1`,
`s = 2`. -/
theorem C6_amended_monotone_in_outer_witness :
    wiscombeCore ([] ++ [(1 : ℝ)]) [1] ≤ wiscombeCore ([] ++ [(2 : ℝ)]) [1] :=
  C6_amended_monotone_in_outer [] [1] 1 2 (by norm_num) (by norm_num)
    (Or.inl (by norm_num))

end TruncationMonotonicity

section NoContrast

lemma mie_numerator_zero (x : ℂ) (Nt : ℕ) (n : ℕ) (hn : n < Nt)
    (hden : d1down x Nt (n + 1) + ((n : ℂ) + 1)/x ≠ 0) :
    (d1down x Nt (n + 1) + ((n : ℂ) + 1)/x) * psiUp x (d1down x Nt) (n + 1)
      - psiUp x (d1down x Nt) n = 0 := by
  have hrec : d1down x Nt n =
      ((n : ℂ) + 1)/x - 1/(d1down x Nt (n + 1) + ((n : ℂ) + 1)/x) :=
    d1down_of_lt hn
  have hpsi : psiUp x (d1down x Nt) (n + 1) =
      psiUp x (d1down x Nt) n * (((n : ℂ) + 1)/x - d1down x Nt n) := rfl
  rw [hpsi, hrec]
  have hsimp : ((n : ℂ) + 1)/x -
      (((n : ℂ) + 1)/x - 1/(d1down x Nt (n + 1) + ((n : ℂ) + 1)/x)) =
      1/(d1down x Nt (n + 1) + ((n : ℂ) + 1)/x) := by ring
  rw [hsimp]
  set D := d1down x Nt (n + 1) + ((n : ℂ) + 1)/x
  set P := psiUp x (d1down x Nt) n
  calc D * (P * (1/D)) - P = (D * (1/D)) * P - P := by ring
    _ = 1 * P - P := by rw [mul_one_div_cancel hden]
    _ = 0 := by ring

lemma singleLayer_unit_m_entries (x : ℂ) (Nt N : ℕ) (zeta : ℕ → ℂ)
    (hle : N ≤ Nt)
    (hden : ∀ j : ℕ, j < N → d1down x Nt (j + 1) + ((j : ℂ) + 1)/x ≠ 0) :
    ∀ p ∈ (assembleAB x 1 ⟨d1down x Nt, d1down x Nt⟩
        (psiUp x (d1down x Nt)) zeta N).drop 1, p = (0, 0) := by
  intro p hp
  rw [assembleAB_drop_one] at hp
  rcases List.mem_map.mp hp with ⟨j, hj, rfl⟩
  have hjN : j < N := List.mem_range.mp hj
  have hnum := mie_numerator_zero x Nt j (lt_of_lt_of_le hjN hle) (hden j hjN)
  have hcast : ((j + 1 : ℕ) : ℂ) = (j : ℂ) + 1 := by push_cast; ring
  simp only [Prod.mk.injEq]
  constructor
  · rw [div_one, hcast]
    rw [show (d1down x Nt (j + 1) + ((j : ℂ) + 1)/x) * psiUp x (d1down x Nt) (j + 1)
        - psiUp x (d1down x Nt) j = 0 from hnum]
    exact zero_div _
  · rw [mul_one, hcast]
    rw [show (d1down x Nt (j + 1) + ((j : ℂ) + 1)/x) * psiUp x (d1down x Nt) (j + 1)
        - psiUp x (d1down x Nt) j = 0 from hnum]
    exact zero_div _

lemma fastMieAB_single (x : ℝ) (mc : ℂ) (N : ℕ) :
    fastMieAB [x] [mc] N =
      assembleAB (x : ℂ) mc (fastPhase1 ((x : ℂ) * mc) N)
        (psiUp (x : ℂ) (d1down (x : ℂ) N))
        (zetaUp (x : ℂ) (d3up (x : ℂ) (d1down (x : ℂ) N) (pzInitDirect (x : ℂ)))) N :=
  rfl

lemma sphereMieAB_single (x : ℝ) (mc : ℂ) (N : ℕ) :
    sphereMieAB [x] [mc] N =
      assembleAB (x : ℂ) mc (spherePhase1 ((x : ℂ) * mc) N)
        (psiUp (x : ℂ) (d1down (x : ℂ) (N + 1)))
        (zetaUp (x : ℂ)
          (d3up (x : ℂ) (d1down (x : ℂ) (N + 1)) (pzInitDirect (x : ℂ)))) N :=
  rfl

/-- C4: for a single layer with relative refractive index `1` (particle
index equal to the medium index, zero absorption), every coefficient with
`n ≥ 1` in the returned table is exactly zero, for both engines, whenever
the recurrence denominators `D1[n] + n/x` are nonvanishing (in exact
arithmetic a vanishing denominator produces junk instead of the
`inf`/`nan` the float code would emit). -/
theorem C4_no_contrast_no_scattering (a wl : ℝ) (n_m : ℂ) (hnm : n_m ≠ 0)
    (hfast : ∀ j : ℕ, j < (wiscombeCore [waveNum n_m wl * a] [1]).toNat →
      d1down ((waveNum n_m wl * a : ℝ) : ℂ)
          (wiscombeCore [waveNum n_m wl * a] [1]).toNat (j + 1)
        + ((j : ℂ) + 1)/((waveNum n_m wl * a : ℝ) : ℂ) ≠ 0)
    (hsph : ∀ j : ℕ, j < (wiscombeCore [waveNum n_m wl * a] [1]).toNat →
      d1down ((waveNum n_m wl * a : ℝ) : ℂ)
          ((wiscombeCore [waveNum n_m wl * a] [1]).toNat + 1) (j + 1)
        + ((j : ℂ) + 1)/((waveNum n_m wl * a : ℝ) : ℂ) ≠ 0) :
    (∃ t, fastMie [a] [n_m.re] [n_m.im] n_m wl = .ok t ∧
      ∀ p ∈ t.drop 1, p = (0, 0)) ∧
    (∃ t, sphereMie [a] [n_m] n_m wl = .ok t ∧
      ∀ p ∈ t.drop 1, p = (0, 0)) := by
  have hm : fastRelIndices [n_m.re] [n_m.im] n_m = [1] := by
    simp only [fastRelIndices, List.zip_cons_cons, List.zip_nil_right,
      List.map_cons, List.map_nil, relIndexFast]
    rw [mul_comm Complex.I, Complex.re_add_im, div_self hnm]
  have hms : sphereRelIndices [n_m] n_m = [1] := by
    simp only [sphereRelIndices, List.map_cons, List.map_nil, div_self hnm]
  have hxs : sizeParams [a] n_m wl = [waveNum n_m wl * a] := rfl
  constructor
  · have hok : fastMie [a] [n_m.re] [n_m.im] n_m wl =
        .ok (fastMieAB [waveNum n_m wl * a] [1]
          (wiscombeCore [waveNum n_m wl * a] [1]).toNat) := by
      rw [fastMie_ok [a] [n_m.re] [n_m.im] n_m wl (by simp) (by simp) (by simp), hm, hxs]
    refine ⟨_, hok, ?_⟩
    rw [fastMieAB_single]
    rw [show ((waveNum n_m wl * a : ℝ) : ℂ) * 1 = ((waveNum n_m wl * a : ℝ) : ℂ) from
      mul_one _]
    exact singleLayer_unit_m_entries _ _ _ _ (le_refl _) hfast
  · have hok : sphereMie [a] [n_m] n_m wl =
        .ok (sphereMieAB [waveNum n_m wl * a] [1]
          (wiscombeCore [waveNum n_m wl * a] [1]).toNat) := by
      rw [sphereMie_ok_single a n_m n_m wl, hms, hxs]
    refine ⟨_, hok, ?_⟩
    rw [sphereMieAB_single]
    rw [show ((waveNum n_m wl * a : ℝ) : ℂ) * 1 = ((waveNum n_m wl * a : ℝ) : ℂ) from
      mul_one _]
    exact singleLayer_unit_m_entries _ _ _ _ (Nat.le_succ _) hsph

end NoContrast

section ConcreteInput

lemma waveNum_one_2000pi : waveNum 1 (2000 * Real.pi) = 1/1000 := by
  rw [waveNum, Complex.one_re]
  have hpi : Real.pi ≠ 0 := Real.pi_ne_zero
  field_simp
  ring

lemma rpow_third_thousandth : ((1/1000 : ℝ)) ^ ((1 : ℝ)/3) = 1/10 := by
  have h : ((1/10 : ℝ)) ^ (3 : ℕ) = 1/1000 := by norm_num
  rw [← h, ← Real.rpow_natCast (1/10 : ℝ) 3, ← Real.rpow_mul (by norm_num)]
  rw [show (((3 : ℕ) : ℝ) * ((1 : ℝ)/3)) = 1 by push_cast; ring, Real.rpow_one]

lemma wiscombeNs_thousandth : wiscombeNs (1/1000) = ((1 : ℤ) : ℝ) := by
  unfold wiscombeNs
  rw [if_pos (by norm_num), rpow_third_thousandth]
  have hfl : ⌊(1/1000 : ℝ) + 4 * (1/10) + 1⌋ = (1 : ℤ) := by
    rw [Int.floor_eq_iff]
    constructor <;> norm_num
  rw [hfl]

lemma wiscombeCore_thousandth : wiscombeCore [(1/1000 : ℝ)] [1] = 1 := by
  rw [wiscombeCore_single_nonneg (1/1000) (by norm_num), wiscombeNs_thousandth,
    max_eq_left (by norm_num), pyInt_intCast 1 (by norm_num)]

lemma ofReal_thousandth : ((1/1000 : ℝ) : ℂ) = 1/1000 := by
  push_cast
  ring

lemma d1down_thousandth_seed : d1down ((1/1000 : ℝ) : ℂ) 1 1 = 0 :=
  d1down_of_ge (le_refl 1)

lemma d1down_thousandth_two : d1down ((1/1000 : ℝ) : ℂ) 2 1 = 2000 - 1/2000 := by
  rw [d1down_of_lt (by norm_num), d1down_of_ge (le_refl 2), ofReal_thousandth]
  push_cast
  norm_num

end ConcreteInput

/-- Witness for C4 at `a_p = 1 µm`, `n_p = n_m = 1`, `λ = 2000π µm`
(size parameter `x = 1/1000`, truncation order `N = 1`). -/
theorem C4_no_contrast_no_scattering_witness :
    (∃ t, fastMie [1] [1] [0] 1 (2000 * Real.pi) = .ok t ∧
      ∀ p ∈ t.drop 1, p = (0, 0)) ∧
    (∃ t, sphereMie [1] [(1 : ℂ)] 1 (2000 * Real.pi) = .ok t ∧
      ∀ p ∈ t.drop 1, p = (0, 0)) := by
  have hx : waveNum 1 (2000 * Real.pi) * 1 = 1/1000 := by
    rw [waveNum_one_2000pi, mul_one]
  have hN : (wiscombeCore [waveNum 1 (2000 * Real.pi) * 1] [1]).toNat = 1 := by
    rw [hx, wiscombeCore_thousandth]
    rfl
  have h := C4_no_contrast_no_scattering 1 (2000 * Real.pi) 1 (by norm_num)
    (by
      intro j hj
      rw [hN] at hj
      interval_cases j
      rw [hx, wiscombeCore_thousandth, Int.toNat_one,
        show (0 : ℕ) + 1 = 1 from rfl, d1down_thousandth_seed, ofReal_thousandth]
      norm_num)
    (by
      intro j hj
      rw [hN] at hj
      interval_cases j
      rw [hx, wiscombeCore_thousandth, Int.toNat_one,
        show (0 : ℕ) + 1 = 1 from rfl, d1down_thousandth_two, ofReal_thousandth]
      norm_num)
  rwa [Complex.one_re, Complex.one_im] at h

section DegenerateLayer

lemma foldl_max_pair (v : ℝ) : List.foldl max 0 [v, v] = List.foldl max 0 [v] := by
  simp only [List.foldl_cons, List.foldl_nil]
  rw [max_assoc, max_self]

lemma wiscombeCore_pair (a : ℝ) (c : ℂ) :
    wiscombeCore [a, a] [c, c] = wiscombeCore [a] [c] := by
  have h1 : lastD [a, a] = a := rfl
  have h2 : lastD [a] = a := rfl
  simp only [wiscombeCore, rollNeg1, h1, h2, List.drop_succ_cons, List.drop_zero,
    List.take_succ_cons, List.take_zero, List.nil_append, List.cons_append,
    List.zip_cons_cons, List.zip_nil_right, List.map_cons, List.map_nil, listMax]
  rw [foldl_max_pair]

lemma fastMieAB_pair (x : ℝ) (mc : ℂ) (N : ℕ) :
    fastMieAB [x, x] [mc, mc] N =
      assembleAB (x : ℂ) mc
        (fastLayerStep N mc mc x x (fastPhase1 ((x : ℂ) * mc) N))
        (psiUp (x : ℂ) (d1down (x : ℂ) N))
        (zetaUp (x : ℂ) (d3up (x : ℂ) (d1down (x : ℂ) N) (pzInitDirect (x : ℂ)))) N :=
  rfl

lemma fastLayerStep_degenerate (N : ℕ) (mc : ℂ) (x : ℝ)
    (hg : ∀ n, n ≤ N →
      mc * d1down (mc * (x : ℂ)) N n -
        mc * d3up (mc * (x : ℂ)) (d1down (mc * (x : ℂ)) N)
          (pzInitSplit (mc * (x : ℂ))) n ≠ 0) :
    ∀ n, n ≤ N →
      (fastLayerStep N mc mc x x (fastPhase1 ((x : ℂ) * mc) N)).ha n =
          (fastPhase1 ((x : ℂ) * mc) N).ha n ∧
        (fastLayerStep N mc mc x x (fastPhase1 ((x : ℂ) * mc) N)).hb n =
          (fastPhase1 ((x : ℂ) * mc) N).hb n := by
  intro n hn
  have hz : (x : ℂ) * mc = mc * (x : ℂ) := mul_comm _ _
  have hha : (fastPhase1 ((x : ℂ) * mc) N).ha n = d1down (mc * (x : ℂ)) N n := by
    rw [fastPhase1, hz]
  have hhb : (fastPhase1 ((x : ℂ) * mc) N).hb n = d1down (mc * (x : ℂ)) N n := by
    rw [fastPhase1, hz]
  constructor
  · show (let z1 := mc * (x : ℂ)
      let z2 := mc * (x : ℂ)
      let d1a := d1down z1 N
      let d1b := d1down z2 N
      let d3a := d3up z1 d1a (pzInitSplit z1)
      let d3b := d3up z2 d1b (pzInitSplit z2)
      let q := qUpFast z1 z2 (((x / x : ℝ) : ℝ) : ℂ) d1a d1b d3a d3b
      let g1 := mc * (fastPhase1 ((x : ℂ) * mc) N).ha n - mc * d1b n
      let g2 := mc * (fastPhase1 ((x : ℂ) * mc) N).ha n - mc * d3b n
      (g2 * d1a n - q n * g1 * d3a n) / (g2 - q n * g1)) =
        (fastPhase1 ((x : ℂ) * mc) N).ha n
    simp only
    rw [hha]
    rw [sub_self (mc * d1down (mc * (x : ℂ)) N n)]
    rw [mul_zero, zero_mul, sub_zero, sub_zero]
    exact mul_div_cancel_left₀ _ (by
      have := hg n hn
      rw [← hha] at this ⊢
      rw [hha]
      exact hg n hn)
  · show (let z1 := mc * (x : ℂ)
      let z2 := mc * (x : ℂ)
      let d1a := d1down z1 N
      let d1b := d1down z2 N
      let d3a := d3up z1 d1a (pzInitSplit z1)
      let d3b := d3up z2 d1b (pzInitSplit z2)
      let q := qUpFast z1 z2 (((x / x : ℝ) : ℝ) : ℂ) d1a d1b d3a d3b
      let g1 := mc * (fastPhase1 ((x : ℂ) * mc) N).hb n - mc * d1b n
      let g2 := mc * (fastPhase1 ((x : ℂ) * mc) N).hb n - mc * d3b n
      (g2 * d1a n - q n * g1 * d3a n) / (g2 - q n * g1)) =
        (fastPhase1 ((x : ℂ) * mc) N).hb n
    simp only
    rw [hhb]
    rw [sub_self (mc * d1down (mc * (x : ℂ)) N n)]
    rw [mul_zero, zero_mul, sub_zero, sub_zero]
    exact mul_div_cancel_left₀ _ (hg n hn)

lemma assembleAB_congr_h (zl mL : ℂ) (s s2 : HState) (psi zeta : ℕ → ℂ) (N : ℕ)
    (h : ∀ n, n ≤ N → s.ha n = s2.ha n ∧ s.hb n = s2.hb n) :
    assembleAB zl mL s psi zeta N = assembleAB zl mL s2 psi zeta N := by
  simp only [assembleAB]
  congr 1
  apply List.map_congr_left
  intro n hn
  have hn2 : n ≤ N := by
    have := List.mem_range.mp hn
    omega
  rw [(h n hn2).1, (h n hn2).2]

end DegenerateLayer

/-- C5: duplicating a layer (same radius, same index) is a no-op: the
two-layer input produces exactly the table of the single-layer input.  The
hypotheses are the exact-arithmetic nonvanishing conditions for the layer
update quotient `g2 = m·(Ha - D3_z2)` (in floats a vanishing `g2` would
produce `inf`/`nan`, not a table). -/
theorem C5_degenerate_layer_collapse (r nr kr wl : ℝ) (n_m : ℂ)
    (hr : 0 < r)
    (hm0 : relIndexFast nr kr n_m ≠ 0)
    (hg : ∀ n, n ≤ (wiscombeCore [waveNum n_m wl * r] [relIndexFast nr kr n_m]).toNat →
      d1down (relIndexFast nr kr n_m * ((waveNum n_m wl * r : ℝ) : ℂ))
          (wiscombeCore [waveNum n_m wl * r] [relIndexFast nr kr n_m]).toNat n ≠
        d3up (relIndexFast nr kr n_m * ((waveNum n_m wl * r : ℝ) : ℂ))
          (d1down (relIndexFast nr kr n_m * ((waveNum n_m wl * r : ℝ) : ℂ))
            (wiscombeCore [waveNum n_m wl * r] [relIndexFast nr kr n_m]).toNat)
          (pzInitSplit (relIndexFast nr kr n_m * ((waveNum n_m wl * r : ℝ) : ℂ))) n) :
    fastMie [r, r] [nr, nr] [kr, kr] n_m wl = fastMie [r] [nr] [kr] n_m wl := by
  have h1 := fastMie_ok [r, r] [nr, nr] [kr, kr] n_m wl (by simp) (by simp) (by simp)
  have h2 := fastMie_ok [r] [nr] [kr] n_m wl (by simp) (by simp) (by simp)
  have hsz2 : sizeParams [r, r] n_m wl = [waveNum n_m wl * r, waveNum n_m wl * r] := rfl
  have hsz1 : sizeParams [r] n_m wl = [waveNum n_m wl * r] := rfl
  have hm2 : fastRelIndices [nr, nr] [kr, kr] n_m =
      [relIndexFast nr kr n_m, relIndexFast nr kr n_m] := rfl
  have hm1 : fastRelIndices [nr] [kr] n_m = [relIndexFast nr kr n_m] := rfl
  rw [h1, h2, hsz2, hsz1, hm2, hm1, wiscombeCore_pair]
  congr 1
  rw [fastMieAB_pair, fastMieAB_single]
  apply assembleAB_congr_h
  apply fastLayerStep_degenerate
  intro n hn
  exact sub_ne_zero.mpr (fun hcon => hg n hn (mul_left_cancel₀ hm0 hcon))

section DegenerateWitness

lemma relIndexFast_unit : relIndexFast 1 0 1 = 1 := by
  simp [relIndexFast]

lemma pzInitSplit_ofReal (a : ℝ) :
    pzInitSplit ((a : ℝ) : ℂ) = (1 - Complex.exp (2 * Complex.I * (a : ℂ))) / 2 := by
  simp [pzInitSplit, Complex.ofReal_re, Complex.ofReal_im]

lemma exp_small_ne_one : Complex.exp (2 * Complex.I * ((1/1000 : ℝ) : ℂ)) ≠ 1 := by
  intro hcon
  rw [Complex.exp_eq_one_iff] at hcon
  rcases hcon with ⟨n, hn⟩
  have him := congrArg Complex.im hn
  have he1 : (2 * Complex.I * ((1/1000 : ℝ) : ℂ)).im = 1/500 := by
    simp [Complex.mul_im]
    try norm_num
  have he2 : ((n : ℂ) * (2 * (Real.pi : ℂ) * Complex.I)).im = (n : ℝ) * (2 * Real.pi) := by
    simp [Complex.mul_im, Complex.mul_re]
    try ring
  rw [he1, he2] at him
  have hpi := Real.pi_gt_three
  rcases lt_trichotomy (n : ℝ) 0 with h | h | h
  · nlinarith
  · rw [h, zero_mul] at him
    norm_num at him
  · have h1 : (1 : ℝ) ≤ (n : ℝ) := by
      have h0 : (0 : ℤ) < n := by exact_mod_cast h
      exact_mod_cast h0
    nlinarith

lemma d1down_thousandth_val :
    d1down ((1/1000 : ℝ) : ℂ) 1 0 = ((1000 - 1/1000 : ℝ) : ℂ) := by
  rw [d1down_of_lt (by norm_num), d1down_of_ge (le_refl 1)]
  push_cast
  norm_num

end DegenerateWitness

/-- Witness for C5 at `r = 1`, `n_p = 1`, `k_p = 0`, `n_m = 1`,
`λ = 2000π` (size parameter `1/1000`, truncation order `1`). -/
theorem C5_degenerate_layer_collapse_witness :
    fastMie [1, 1] [1, 1] [0, 0] 1 (2000 * Real.pi) =
      fastMie [1] [1] [0] 1 (2000 * Real.pi) := by
  have hx : waveNum 1 (2000 * Real.pi) * 1 = 1/1000 := by
    rw [waveNum_one_2000pi, mul_one]
  have hz : relIndexFast 1 0 1 * ((waveNum 1 (2000 * Real.pi) * 1 : ℝ) : ℂ) =
      ((1/1000 : ℝ) : ℂ) := by
    rw [relIndexFast_unit, hx, one_mul]
  have hN : (wiscombeCore [waveNum 1 (2000 * Real.pi) * 1] [relIndexFast 1 0 1]).toNat = 1 := by
    rw [hx, relIndexFast_unit, wiscombeCore_thousandth]
    rfl
  apply C5_degenerate_layer_collapse 1 1 0 (2000 * Real.pi) 1 (by norm_num)
    (by rw [relIndexFast_unit]; exact one_ne_zero)
  intro n hn
  rw [hN] at hn
  rw [hN, hz]
  set w : ℂ := ((1/1000 : ℝ) : ℂ) with hw
  interval_cases n
  · -- index 0: D1[0] is real, D3[0] = i
    have hd3 : d3up w (d1down w 1) (pzInitSplit w) 0 = Complex.I := rfl
    rw [hd3, d1down_thousandth_val]
    intro hcon
    have := congrArg Complex.im hcon
    simp [Complex.ofReal_im, Complex.I_im] at this
  · -- index 1: D1[1] = 0, D3[1] = i/PsiZeta[1] with PsiZeta[1] ≠ 0
    have hseed : d1down w 1 1 = 0 := d1down_of_ge (le_refl 1)
    have hd3 : d3up w (d1down w 1) (pzInitSplit w) 1 =
        d1down w 1 1 + Complex.I /
          (pzInitSplit w * ((((0 : ℕ) : ℂ) + 1)/w - d1down w 1 0)
            * ((((0 : ℕ) : ℂ) + 1)/w - Complex.I)) := rfl
    have hpz0 : pzInitSplit w ≠ 0 := by
      rw [hw, pzInitSplit_ofReal]
      apply div_ne_zero _ two_ne_zero
      exact sub_ne_zero.mpr (Ne.symm exp_small_ne_one)
    have hf2 : (((0 : ℕ) : ℂ) + 1)/w - d1down w 1 0 = ((1/1000 : ℝ) : ℂ) := by
      rw [d1down_thousandth_val, hw]
      push_cast
      norm_num
    have hf3 : (((0 : ℕ) : ℂ) + 1)/w - Complex.I ≠ 0 := by
      intro hcon
      have := congrArg Complex.im hcon
      rw [hw] at this
      simp [Complex.sub_im, Complex.div_im, Complex.ofReal_im, Complex.I_im] at this
    have hprod : pzInitSplit w * ((((0 : ℕ) : ℂ) + 1)/w - d1down w 1 0)
        * ((((0 : ℕ) : ℂ) + 1)/w - Complex.I) ≠ 0 := by
      apply mul_ne_zero (mul_ne_zero hpz0 ?_) hf3
      rw [hf2]
      exact Complex.ofReal_ne_zero.mpr (by norm_num)
    rw [hseed, hd3, hseed, zero_add]
    exact (div_ne_zero Complex.I_ne_zero hprod).symm
